import Mathlib

/-!
Shallow embedding of the brute-force k-nearest-neighbour search of
src/main.cpp (the functions `l2_distance` and `brute_force_search`, and the
struct `SearchResult`), with proofs of the behavioural properties of the
search.

Representation notes.

* Vectors (C++ `std::vector<float>`) are lists of rationals; exact rational
  arithmetic stands in for IEEE float arithmetic.
* The C++ `l2_distance` returns `sqrt(sum of squared differences)` on equal
  sizes and the sentinel `-1.0f` on a size mismatch.  The embedding stores
  the radicand (the squared distance) in place of the square root, because
  square roots of rationals are in general irrational and `Real.sqrt` is not
  computable.  `Real.sqrt` is strictly monotone and injective on `[0, ∞)`,
  and the sentinel `-1` is strictly below every square root, so the map from
  a stored value to the value the C++ program holds is strictly monotone and
  injective on the values that occur; every comparison the search performs
  therefore takes the same branch in the embedding as in the program (the
  lemmas `sqrt_lt_sqrt_iff_of_sq` and `sentinel_lt_sqrt` below make the
  bridge precise).
* `std::priority_queue` (a max-heap keyed by `SearchResult.distance`, the
  comparison being `operator<` of `SearchResult`, which compares only the
  distance field) is modelled by its contents kept as a list sorted by
  descending distance: `top` is the head, `pop` drops the head, `push`
  inserts in order.  Which of several distance-tied elements sits at the top
  of a `std::priority_queue` is not specified by the C++ standard; the model
  fixes one resolution, and every property proved below depends only on the
  retained indices and distances, not on that internal choice.
* `max_heap.top()` on an empty heap is undefined behaviour in C++; the model
  makes the read partial (`Option`), so a search that reaches it returns
  `none`.
-/

/-- Entry of the search output: `struct SearchResult` of main.cpp
(`int index; float distance`).  The `distance` field stores the squared
Euclidean distance (see the representation notes). -/
structure SearchResult where
  index : ℕ
  distance : ℚ
deriving DecidableEq, Repr

/-- The accumulation loop of `l2_distance`: sum of squared per-component
differences of two equal-length vectors. -/
def sqSum : List ℚ → List ℚ → ℚ
  | [], _ => 0
  | _, [] => 0
  | a :: as, b :: bs => (a - b) * (a - b) + sqSum as bs

/-- `l2_distance` of main.cpp.  On a dimension mismatch it prints a message
to stderr and returns the sentinel `-1.0f` — it does not abort, and the
caller receives `-1` as an ordinary value.  Otherwise the (squared, see the
representation notes) Euclidean distance. -/
def l2_distance (a b : List ℚ) : ℚ :=
  if a.length ≠ b.length then -1 else sqSum a b

/-- `static_cast<size_t>(k)`: conversion of the signed `int k` to the
64-bit unsigned `size_t`, i.e. reduction modulo 2 ^ 64 =
18446744073709551616. -/
def toSizeT (k : ℤ) : ℕ := (k % 18446744073709551616).toNat

/-- `max_heap.push`: insert, keeping the modelled heap contents sorted by
descending distance. -/
def heapPush (x : SearchResult) : List SearchResult → List SearchResult
  | [] => [x]
  | y :: ys => if x.distance ≤ y.distance then y :: heapPush x ys else x :: y :: ys

/-- `max_heap.top()`: the maximum-distance element, i.e. the head of the
descending list; `none` models the undefined-behaviour read on an empty
heap. -/
def heapTop (h : List SearchResult) : Option SearchResult := h.head?

/-- `max_heap.pop()`: remove the maximum-distance element. -/
def heapPop (h : List SearchResult) : List SearchResult := h.tail

/-- One iteration of the scan loop of `brute_force_search` (main.cpp lines
90-104): compute the distance of entry `i`, then push while the heap is
below `static_cast<size_t>(k)`, else replace the current worst exactly when
the new distance is strictly smaller, else discard. -/
def scanStep (k : ℤ) (q : List ℚ) (i : ℕ) (v : List ℚ)
    (h : List SearchResult) : Option (List SearchResult) :=
  let dist := l2_distance q v
  if h.length < toSizeT k then
    some (heapPush ⟨i, dist⟩ h)
  else
    match heapTop h with
    | none => none
    | some t => if dist < t.distance then some (heapPush ⟨i, dist⟩ (heapPop h)) else some h

/-- The scan loop of `brute_force_search` over the database entries from
index `i` on. -/
def scanFrom (k : ℤ) (q : List ℚ) : ℕ → List (List ℚ) → List SearchResult →
    Option (List SearchResult)
  | _, [], h => some h
  | i, v :: rest, h =>
    match scanStep k q i v h with
    | none => none
    | some h2 => scanFrom k q (i + 1) rest h2

/-- The drain loop after the scan (main.cpp lines 107-111): while the heap
is nonempty, read the top and pop.  The loop guard guarantees the heap is
nonempty whenever `top()` is read, so the read always succeeds here; the
argument of the recursive call is the popped heap, `heapPop (x :: xs)`,
which is definitionally `xs`. -/
def drainHeap : List SearchResult → List SearchResult
  | [] => []
  | x :: xs =>
    match heapTop (x :: xs) with
    | none => []
    | some t => t :: drainHeap xs

/-- `brute_force_search` of main.cpp: scan every database entry, then drain
the heap and reverse to obtain closest-first order.  `none` models a run
that reaches the undefined-behaviour `top()` on an empty heap. -/
def brute_force_search (q : List ℚ) (db : List (List ℚ)) (k : ℤ) :
    Option (List SearchResult) :=
  (scanFrom k q 0 db []).map (fun h => (drainHeap h).reverse)

/-! ### Basic lemmas about the distance evaluator -/

theorem sqSum_self (v : List ℚ) : sqSum v v = 0 := by
  induction v with
  | nil => rfl
  | cons a as ih => simp [sqSum, ih]

theorem sqSum_comm (a b : List ℚ) : sqSum a b = sqSum b a := by
  induction a generalizing b with
  | nil => cases b <;> rfl
  | cons x xs ih =>
    cases b with
    | nil => rfl
    | cons y ys =>
      simp only [sqSum]
      rw [ih ys]
      ring

theorem sqSum_nonneg (a b : List ℚ) : 0 ≤ sqSum a b := by
  induction a generalizing b with
  | nil => simp [sqSum]
  | cons x xs ih =>
    cases b with
    | nil => simp [sqSum]
    | cons y ys => have := ih ys; have := mul_self_nonneg (x - y); simp [sqSum]; linarith

theorem l2_self (v : List ℚ) : l2_distance v v = 0 := by
  simp [l2_distance, sqSum_self]

theorem l2_comm (a b : List ℚ) : l2_distance a b = l2_distance b a := by
  unfold l2_distance
  by_cases h : a.length = b.length
  · simp [h, sqSum_comm]
  · have h2 : ¬ b.length = a.length := fun he => h he.symm
    simp [h, h2]

theorem l2_of_length_eq {a b : List ℚ} (h : a.length = b.length) :
    l2_distance a b = sqSum a b := by
  simp [l2_distance, h]

/-! ### The bridge from stored squared distances to the float values -/

theorem sqrt_lt_sqrt_iff_of_sq (a b : ℚ) (ha : 0 ≤ a) :
    Real.sqrt a < Real.sqrt b ↔ (a : ℝ) < (b : ℝ) := by
  constructor
  · intro h
    by_contra hc
    push_neg at hc
    exact absurd (Real.sqrt_le_sqrt hc) (not_le.mpr h)
  · intro h
    exact Real.sqrt_lt_sqrt (by exact_mod_cast ha) h

theorem sentinel_lt_sqrt (b : ℚ) : ((-1 : ℚ) : ℝ) < Real.sqrt b := by
  have := Real.sqrt_nonneg (b : ℝ)
  push_cast
  linarith

/-! ### Lemmas about the modelled heap -/

/-- The heap contents are sorted by descending distance. -/
def SortedDesc (h : List SearchResult) : Prop :=
  List.Pairwise (fun x y => y.distance ≤ x.distance) h

theorem heapPush_perm (x : SearchResult) (h : List SearchResult) :
    List.Perm (heapPush x h) (x :: h) := by
  induction h with
  | nil => simp [heapPush]
  | cons y ys ih =>
    by_cases hc : x.distance ≤ y.distance
    · simp only [heapPush, if_pos hc]
      exact (List.Perm.cons y ih).trans (List.Perm.swap x y ys)
    · simp [heapPush, hc]

theorem heapPush_length (x : SearchResult) (h : List SearchResult) :
    (heapPush x h).length = h.length + 1 := by
  have := (heapPush_perm x h).length_eq
  simpa using this

theorem mem_heapPush {a x : SearchResult} {h : List SearchResult} :
    a ∈ heapPush x h ↔ a = x ∨ a ∈ h := by
  rw [(heapPush_perm x h).mem_iff]
  simp

theorem heapPush_map_index_perm (x : SearchResult) (h : List SearchResult) :
    List.Perm ((heapPush x h).map SearchResult.index)
      (x.index :: h.map SearchResult.index) := by
  have := (heapPush_perm x h).map SearchResult.index
  simpa using this

theorem heapPush_sorted (x : SearchResult) :
    ∀ {h : List SearchResult}, SortedDesc h → SortedDesc (heapPush x h) := by
  intro h
  induction h with
  | nil =>
    intro _
    simp [heapPush, SortedDesc]
  | cons y ys ih =>
    intro hs
    rw [SortedDesc, List.pairwise_cons] at hs
    obtain ⟨hy, hys⟩ := hs
    by_cases hc : x.distance ≤ y.distance
    · rw [SortedDesc]
      simp only [heapPush, if_pos hc]
      refine List.pairwise_cons.mpr ⟨?_, ih hys⟩
      intro z hz
      rcases mem_heapPush.mp hz with rfl | hz2
      · exact hc
      · exact hy z hz2
    · have hyx : y.distance ≤ x.distance := le_of_not_le hc
      rw [SortedDesc]
      simp only [heapPush, if_neg hc]
      refine List.pairwise_cons.mpr ⟨?_, List.pairwise_cons.mpr ⟨hy, hys⟩⟩
      intro z hz
      rcases List.mem_cons.mp hz with rfl | hz2
      · exact hyx
      · exact le_trans (hy z hz2) hyx

/-- In a descending heap the head bounds every element from above. -/
theorem sorted_le_head {t : SearchResult} {hs : List SearchResult}
    (h : SortedDesc (t :: hs)) : ∀ x ∈ t :: hs, x.distance ≤ t.distance := by
  rw [SortedDesc, List.pairwise_cons] at h
  intro x hx
  rcases List.mem_cons.mp hx with rfl | hx2
  · exact le_refl _
  · exact h.1 x hx2

theorem drainHeap_eq (h : List SearchResult) : drainHeap h = h := by
  induction h with
  | nil => rfl
  | cons x xs ih => simp [drainHeap, heapTop, ih]

/-- A list of n distinct naturals all below n contains every j < n. -/
theorem mem_of_nodup_full {s : List ℕ} {n : ℕ} (hnd : s.Nodup)
    (hlt : ∀ a ∈ s, a < n) (hlen : s.length = n) : ∀ j < n, j ∈ s := by
  intro j hj
  have hsub : s.toFinset ⊆ Finset.range n := by
    intro a ha
    rw [List.mem_toFinset] at ha
    exact Finset.mem_range.mpr (hlt a ha)
  have hcard : s.toFinset.card = n := by
    rw [List.toFinset_card_of_nodup hnd, hlen]
  have heq : s.toFinset = Finset.range n :=
    Finset.eq_of_subset_of_card_le hsub (by rw [hcard, Finset.card_range])
  have hjmem : j ∈ s.toFinset := by
    rw [heq]
    exact Finset.mem_range.mpr hj
  exact List.mem_toFinset.mp hjmem

/-! ### The scan invariant -/

/-- Invariant of the scan loop after the entries with indices below `i`
have been processed and the heap holds `h`: the heap is sorted descending,
holds `min i (size_t k)` entries, every entry carries a scanned in-range
index with its recomputed distance, indices are pairwise distinct, and
every scanned index absent from the heap is at distance at least every
retained distance. -/
structure ScanInv (k : ℤ) (q : List ℚ) (db : List (List ℚ)) (i : ℕ)
    (h : List SearchResult) : Prop where
  sorted : SortedDesc h
  len : h.length = min i (toSizeT k)
  ok : ∀ x ∈ h, x.index < i ∧ x.index < db.length ∧
      x.distance = l2_distance q (db.getD x.index [])
  nodup : (h.map SearchResult.index).Nodup
  excl : ∀ j, j < i → (∀ x ∈ h, x.index ≠ j) →
      ∀ x ∈ h, x.distance ≤ l2_distance q (db.getD j [])

theorem scanStep_inv {k : ℤ} {q : List ℚ} {db : List (List ℚ)} {i : ℕ}
    {h : List SearchResult} (hk : 1 ≤ toSizeT k) (hi : i < db.length)
    (inv : ScanInv k q db i h) :
    ∃ h2, scanStep k q i (db.getD i []) h = some h2 ∧
      ScanInv k q db (i + 1) h2 := by
  by_cases hfill : h.length < toSizeT k
  · -- below capacity: unconditional push
    refine ⟨heapPush ⟨i, l2_distance q (db.getD i [])⟩ h, ?_, ?_⟩
    · simp [scanStep, hfill]
    · have hlen_i : h.length = i := by
        have := inv.len
        omega
      constructor
      · exact heapPush_sorted _ inv.sorted
      · rw [heapPush_length, hlen_i]
        omega
      · intro x hx
        rcases mem_heapPush.mp hx with rfl | hx2
        · exact ⟨Nat.lt_succ_self i, hi, rfl⟩
        · obtain ⟨h1, h2, h3⟩ := inv.ok x hx2
          exact ⟨Nat.lt_succ_of_lt h1, h2, h3⟩
      · rw [(heapPush_map_index_perm _ _).nodup_iff]
        refine List.nodup_cons.mpr ⟨?_, inv.nodup⟩
        intro hmem
        obtain ⟨x, hx, hxi⟩ := List.mem_map.mp hmem
        have hxi2 : x.index = i := hxi
        have := (inv.ok x hx).1
        omega
      · intro j hj hjabs x hx
        exfalso
        by_cases hij : j = i
        · exact hjabs _ (mem_heapPush.mpr (Or.inl rfl)) hij.symm
        · have hj2 : j < i := by omega
          -- every index below i is already in the heap (pigeonhole)
          have hall : ∀ a ∈ h.map SearchResult.index, a < i := by
            intro a ha
            obtain ⟨y, hy, hyi⟩ := List.mem_map.mp ha
            rw [← hyi]
            exact (inv.ok y hy).1
          have hlenm : (h.map SearchResult.index).length = i := by
            rw [List.length_map, hlen_i]
          have hjmem := mem_of_nodup_full inv.nodup hall hlenm j hj2
          obtain ⟨y, hy, hyi⟩ := List.mem_map.mp hjmem
          exact hjabs y (mem_heapPush.mpr (Or.inr hy)) hyi
  · -- at capacity: the heap is nonempty, so top() succeeds
    obtain ⟨t, hrest, rfl⟩ : ∃ t hrest, h = t :: hrest := by
      cases h with
      | nil =>
        exfalso
        simp at hfill
        omega
      | cons a as => exact ⟨a, as, rfl⟩
    have htop : heapTop (t :: hrest) = some t := rfl
    have hmax := sorted_le_head inv.sorted
    by_cases hlt : l2_distance q (db.getD i []) < t.distance
    · -- strictly closer: evict the worst, push the new entry
      refine ⟨heapPush ⟨i, l2_distance q (db.getD i [])⟩ hrest, ?_, ?_⟩
      · simp only [scanStep, heapTop, List.head?, heapPop, List.tail_cons]
        rw [if_neg hfill, if_pos hlt]
      · have hsrest : SortedDesc hrest := by
          have hs := inv.sorted
          rw [SortedDesc, List.pairwise_cons] at hs
          exact hs.2
        have hnd := inv.nodup
        rw [List.map_cons, List.nodup_cons] at hnd
        -- every element of the new heap is at most the evicted top
        have hbound : ∀ x ∈ heapPush ⟨i, l2_distance q (db.getD i [])⟩ hrest,
            x.distance ≤ t.distance := by
          intro x hx
          rcases mem_heapPush.mp hx with rfl | hx2
          · exact le_of_lt hlt
          · exact hmax x (List.mem_cons_of_mem t hx2)
        constructor
        · exact heapPush_sorted _ hsrest
        · rw [heapPush_length]
          have hL := inv.len
          simp only [List.length_cons] at hL hfill
          omega
        · intro x hx
          rcases mem_heapPush.mp hx with rfl | hx2
          · exact ⟨Nat.lt_succ_self i, hi, rfl⟩
          · obtain ⟨h1, h2, h3⟩ := inv.ok x (List.mem_cons_of_mem t hx2)
            exact ⟨Nat.lt_succ_of_lt h1, h2, h3⟩
        · rw [(heapPush_map_index_perm _ _).nodup_iff]
          refine List.nodup_cons.mpr ⟨?_, hnd.2⟩
          intro hmem
          obtain ⟨x, hx, hxi⟩ := List.mem_map.mp hmem
          have hxi2 : x.index = i := hxi
          have := (inv.ok x (List.mem_cons_of_mem t hx)).1
          omega
        · intro j hj hjabs
          by_cases hij : j = i
          · exfalso
            exact hjabs _ (mem_heapPush.mpr (Or.inl rfl)) hij.symm
          · have hj2 : j < i := by omega
            by_cases hjh : ∀ x ∈ t :: hrest, x.index ≠ j
            · -- j was already excluded before this step
              have hold := inv.excl j hj2 hjh
              have htj : t.distance ≤ l2_distance q (db.getD j []) :=
                hold t (List.mem_cons_self t hrest)
              intro x hx
              exact le_trans (hbound x hx) htj
            · -- j is in the old heap but not the new one: j is the evicted top
              push_neg at hjh
              obtain ⟨e, he, hei⟩ := hjh
              have het : e = t := by
                rcases List.mem_cons.mp he with rfl | he2
                · rfl
                · exact absurd hei (hjabs e (mem_heapPush.mpr (Or.inr he2)))
              have htd : t.distance = l2_distance q (db.getD j []) := by
                have hok := (inv.ok t (List.mem_cons_self t hrest)).2.2
                rw [← het, hei] at hok
                rw [← het]
                exact hok
              intro x hx
              rw [← htd]
              exact hbound x hx
    · -- not strictly closer: discard the candidate
      refine ⟨t :: hrest, ?_, ?_⟩
      · simp only [scanStep, heapTop, List.head?]
        rw [if_neg hfill, if_neg hlt]
      · constructor
        · exact inv.sorted
        · have := inv.len
          omega
        · intro x hx
          obtain ⟨h1, h2, h3⟩ := inv.ok x hx
          exact ⟨Nat.lt_succ_of_lt h1, h2, h3⟩
        · exact inv.nodup
        · intro j hj hjabs x hx
          by_cases hij : j = i
          · have hge : t.distance ≤ l2_distance q (db.getD j []) := by
              rw [hij]
              exact le_of_not_lt hlt
            exact le_trans (hmax x hx) hge
          · have hj2 : j < i := by omega
            exact inv.excl j hj2 hjabs x hx

theorem scanFrom_inv {k : ℤ} {q : List ℚ} {db : List (List ℚ)}
    (hk : 1 ≤ toSizeT k) :
    ∀ (rest : List (List ℚ)) (i : ℕ) (h : List SearchResult),
      db.drop i = rest → i + rest.length = db.length → ScanInv k q db i h →
      ∃ h2, scanFrom k q i rest h = some h2 ∧ ScanInv k q db db.length h2 := by
  intro rest
  induction rest with
  | nil =>
    intro i h _ hlen inv
    simp only [List.length_nil, Nat.add_zero] at hlen
    subst hlen
    exact ⟨h, rfl, inv⟩
  | cons v rest ih =>
    intro i h hdrop hlen inv
    have hi : i < db.length := by
      simp only [List.length_cons] at hlen
      omega
    have hv : db.getD i [] = v := by
      have h0 : db[i]? = some v := by
        have hd := List.getElem?_drop db i 0
        rw [hdrop] at hd
        simpa using hd.symm
      simp [List.getD_eq_getElem?_getD, h0]
    have hdrop2 : db.drop (i + 1) = rest := by
      have hd : List.drop 1 (List.drop i db) = List.drop (i + 1) db :=
        List.drop_drop 1 i db
      rw [hdrop] at hd
      simp only [List.drop_succ_cons, List.drop_zero] at hd
      exact hd.symm
    obtain ⟨h2, hstep, inv2⟩ := scanStep_inv hk hi inv
    rw [hv] at hstep
    have hlen2 : (i + 1) + rest.length = db.length := by
      simp only [List.length_cons] at hlen
      omega
    obtain ⟨h3, hrun, inv3⟩ := ih (i + 1) h2 hdrop2 hlen2 inv2
    refine ⟨h3, ?_, inv3⟩
    simp only [scanFrom, hstep]
    exact hrun

/-- Master specification: with a positive size_t capacity the search
completes, its value is the reverse of a heap satisfying the full-scan
invariant. -/
theorem search_spec (k : ℤ) (q : List ℚ) (db : List (List ℚ))
    (hk : 1 ≤ toSizeT k) :
    ∃ hp, brute_force_search q db k = some hp.reverse ∧
      ScanInv k q db db.length hp := by
  have inv0 : ScanInv k q db 0 [] := by
    constructor
    · exact List.Pairwise.nil
    · simp
    · intro x hx
      exact absurd hx (List.not_mem_nil x)
    · simp
    · intro j hj
      exact absurd hj (Nat.not_lt_zero j)
  obtain ⟨h2, hrun, inv2⟩ := scanFrom_inv hk db 0 [] rfl (by simp) inv0
  refine ⟨h2, ?_, inv2⟩
  simp [brute_force_search, hrun, drainHeap_eq]

/-! ### Arithmetic of the size_t cast -/

theorem toSizeT_eq_toNat {k : ℤ} (h1 : 0 ≤ k) (h2 : k < 2147483648) :
    toSizeT k = k.toNat := by
  unfold toSizeT
  omega

theorem one_le_toSizeT_of_pos {k : ℤ} (h1 : 1 ≤ k) (h2 : k < 2147483648) :
    1 ≤ toSizeT k := by
  unfold toSizeT
  omega

theorem toSizeT_of_neg {k : ℤ} (h1 : -2147483648 ≤ k) (h2 : k < 0) :
    9223372036854775808 ≤ toSizeT k := by
  unfold toSizeT
  omega

/-! ### The claims -/

/-- C4: for every query, database and k that is a positive C++ int
(1 ≤ k < 2^31), the search completes without error and the Result Set
holds exactly min(k, |database|) entries; in particular an empty database
yields an empty Result Set, not an error. -/
theorem c4_result_set_size (q : List ℚ) (db : List (List ℚ)) (k : ℤ)
    (hk1 : 1 ≤ k) (hk2 : k < 2147483648) :
    ∃ rs, brute_force_search q db k = some rs ∧
      rs.length = min k.toNat db.length ∧ (db = [] → rs = []) := by
  obtain ⟨hp, hrun, inv⟩ := search_spec k q db (one_le_toSizeT_of_pos hk1 hk2)
  refine ⟨hp.reverse, hrun, ?_, ?_⟩
  · rw [List.length_reverse, inv.len, toSizeT_eq_toNat (by omega) hk2]
    omega
  · intro hdb
    have hlen := inv.len
    rw [hdb] at hlen
    simp at hlen
    rw [hlen]
    rfl

/-- C5: for every query, database and positive-int k, the Result Set is
sorted ascending by distance (closest first). -/
theorem c5_sorted_ascending (q : List ℚ) (db : List (List ℚ)) (k : ℤ)
    (hk1 : 1 ≤ k) (hk2 : k < 2147483648) :
    ∃ rs, brute_force_search q db k = some rs ∧
      List.Pairwise (fun x y => x.distance ≤ y.distance) rs := by
  obtain ⟨hp, hrun, inv⟩ := search_spec k q db (one_le_toSizeT_of_pos hk1 hk2)
  refine ⟨hp.reverse, hrun, ?_⟩
  rw [List.pairwise_reverse]
  exact inv.sorted

/-- C6: for every query, equal-dimension database and positive-int k, every
entry of the Result Set carries an in-range database index, and its stored
distance equals the distance of the query to the database vector at that
index recomputed independently (the sum of squared per-component
differences; the C++ value is its square root). -/
theorem c6_entries_recompute (q : List ℚ) (db : List (List ℚ)) (k : ℤ)
    (hk1 : 1 ≤ k) (hk2 : k < 2147483648)
    (hdim : ∀ v ∈ db, v.length = q.length) :
    ∃ rs, brute_force_search q db k = some rs ∧
      ∀ x ∈ rs, x.index < db.length ∧
        x.distance = l2_distance q (db.getD x.index []) ∧
        x.distance = sqSum q (db.getD x.index []) := by
  obtain ⟨hp, hrun, inv⟩ := search_spec k q db (one_le_toSizeT_of_pos hk1 hk2)
  refine ⟨hp.reverse, hrun, ?_⟩
  intro x hx
  rw [List.mem_reverse] at hx
  obtain ⟨h1, h2, h3⟩ := inv.ok x hx
  refine ⟨h2, h3, ?_⟩
  have hmem : db.getD x.index [] ∈ db := by
    rw [List.getD_eq_getElem?_getD, List.getElem?_eq_getElem h2]
    exact List.getElem_mem h2
  rw [h3, l2_of_length_eq (hdim _ hmem).symm]

/-- C3: for every query, database and positive-int k, every candidate index
absent from the Result Set is at distance at least every distance retained
in the Result Set (hence at least its maximum); moreover a candidate whose
distance exactly equals the current worst retained distance at its
evaluation step is discarded, leaving the heap unchanged. -/
theorem c3_excluded_not_closer (q : List ℚ) (db : List (List ℚ)) (k : ℤ)
    (hk1 : 1 ≤ k) (hk2 : k < 2147483648) :
    (∃ rs, brute_force_search q db k = some rs ∧
      ∀ j, j < db.length → (∀ x ∈ rs, x.index ≠ j) →
        ∀ x ∈ rs, x.distance ≤ l2_distance q (db.getD j [])) ∧
    (∀ (i : ℕ) (v : List ℚ) (hp : List SearchResult) (t : SearchResult),
      ¬ hp.length < toSizeT k → heapTop hp = some t →
      l2_distance q v = t.distance → scanStep k q i v hp = some hp) := by
  constructor
  · obtain ⟨hp, hrun, inv⟩ := search_spec k q db (one_le_toSizeT_of_pos hk1 hk2)
    refine ⟨hp.reverse, hrun, ?_⟩
    intro j hj hjabs x hx
    rw [List.mem_reverse] at hx
    refine inv.excl j hj ?_ x hx
    intro y hy
    exact hjabs y (List.mem_reverse.mpr hy)
  · intro i v hp t hfull htop heq
    simp only [scanStep]
    rw [if_neg hfull, htop]
    simp [heq]

/-! ### Lemmas for the all-identical-vectors scenario -/

theorem scanFrom_append_some (k : ℤ) (q : List ℚ) :
    ∀ (l1 l2 : List (List ℚ)) (i : ℕ) (h h2 : List SearchResult),
      scanFrom k q i l1 h = some h2 →
      scanFrom k q i (l1 ++ l2) h = scanFrom k q (i + l1.length) l2 h2 := by
  intro l1
  induction l1 with
  | nil =>
    intro l2 i h h2 hrun
    simp only [scanFrom] at hrun
    cases hrun
    simp [scanFrom]
  | cons v rest ih =>
    intro l2 i h h2 hrun
    cases hstep : scanStep k q i v h with
    | none =>
      rw [scanFrom, hstep] at hrun
      cases hrun
    | some hmid =>
      simp only [scanFrom, hstep] at hrun
      simp only [List.cons_append, scanFrom, hstep, List.length_cons]
      have harith : i + (rest.length + 1) = (i + 1) + rest.length := by omega
      rw [harith]
      exact ih l2 (i + 1) hmid h2 hrun

theorem scanFrom_reject_all (k : ℤ) (q : List ℚ) (t : SearchResult)
    (H : List SearchResult) (hfull : ¬ H.length < toSizeT k)
    (htop : heapTop H = some t) (hge : ¬ l2_distance q q < t.distance) :
    ∀ (m i : ℕ), scanFrom k q i (List.replicate m q) H = some H := by
  intro m
  induction m with
  | zero =>
    intro i
    rfl
  | succ n ih =>
    intro i
    rw [List.replicate_succ]
    have hstep : scanStep k q i q H = some H := by
      simp only [scanStep]
      rw [if_neg hfull, htop]
      simp [hge]
    simp only [scanFrom, hstep]
    exact ih (i + 1)

/-- C7: ties are resolved first-seen-wins: once the heap holds k entries, a
candidate whose distance equals the current worst is not admitted.  For any
query and a database of 1000 copies of the query with k = 5, the search
returns exactly 5 entries, every returned distance is 0, and the returned
indices are exactly 0..4 (the five earliest entries). -/
theorem c7_identical_database (q : List ℚ) :
    ∃ rs, brute_force_search q (List.replicate 1000 q) 5 = some rs ∧
      rs.length = 5 ∧ (∀ x ∈ rs, x.distance = 0) ∧
      (∀ j, (∃ x ∈ rs, x.index = j) ↔ j < 5) := by
  have hsplit : List.replicate 1000 q = [q, q, q, q, q] ++ List.replicate 995 q := rfl
  have hscan5 : scanFrom 5 q 0 [q, q, q, q, q] [] =
      some [⟨0, 0⟩, ⟨1, 0⟩, ⟨2, 0⟩, ⟨3, 0⟩, ⟨4, 0⟩] := by
    norm_num [scanFrom, scanStep, heapPush, heapTop, heapPop, toSizeT, l2_self]
  have hrest : scanFrom 5 q 5 (List.replicate 995 q)
      [⟨0, 0⟩, ⟨1, 0⟩, ⟨2, 0⟩, ⟨3, 0⟩, ⟨4, 0⟩] =
      some [⟨0, 0⟩, ⟨1, 0⟩, ⟨2, 0⟩, ⟨3, 0⟩, ⟨4, 0⟩] := by
    refine scanFrom_reject_all 5 q ⟨0, 0⟩
      [⟨0, 0⟩, ⟨1, 0⟩, ⟨2, 0⟩, ⟨3, 0⟩, ⟨4, 0⟩] ?_ rfl ?_ 995 5
    · norm_num [toSizeT]
    · rw [l2_self]
      norm_num
  have hrun : scanFrom 5 q 0 (List.replicate 1000 q) [] =
      some [⟨0, 0⟩, ⟨1, 0⟩, ⟨2, 0⟩, ⟨3, 0⟩, ⟨4, 0⟩] := by
    rw [hsplit, scanFrom_append_some 5 q [q, q, q, q, q] (List.replicate 995 q)
      0 [] [⟨0, 0⟩, ⟨1, 0⟩, ⟨2, 0⟩, ⟨3, 0⟩, ⟨4, 0⟩] hscan5]
    exact hrest
  refine ⟨[⟨4, 0⟩, ⟨3, 0⟩, ⟨2, 0⟩, ⟨1, 0⟩, ⟨0, 0⟩], ?_, rfl, ?_, ?_⟩
  · show (scanFrom 5 q 0 (List.replicate 1000 q) []).map
      (fun h => (drainHeap h).reverse) = _
    rw [hrun]
    rfl
  · intro x hx
    fin_cases hx <;> rfl
  · intro j
    constructor
    · rintro ⟨x, hx, rfl⟩
      fin_cases hx <;> decide
    · intro hj
      interval_cases j
      · exact ⟨⟨0, 0⟩, by simp, rfl⟩
      · exact ⟨⟨1, 0⟩, by simp, rfl⟩
      · exact ⟨⟨2, 0⟩, by simp, rfl⟩
      · exact ⟨⟨3, 0⟩, by simp, rfl⟩
      · exact ⟨⟨4, 0⟩, by simp, rfl⟩

/-- C8: the distance of any vector to itself is exactly 0, and the distance
evaluator is symmetric in its two arguments (for mismatched lengths both
orders return the same sentinel, so symmetry holds unconditionally). -/
theorem c8_zero_self_and_symmetric :
    (∀ v : List ℚ, l2_distance v v = 0) ∧
    (∀ a b : List ℚ, l2_distance a b = l2_distance b a) :=
  ⟨l2_self, l2_comm⟩

/-- C9: with k = 0 and a nonempty database the very first iteration takes
the at-capacity branch (the heap size 0 is not below size_t 0) and reads
`max_heap.top()` on an empty heap — the undefined-behaviour read is
reachable, modelled as the search returning none. -/
theorem c9_k_zero_reads_empty_top (q : List ℚ) (db : List (List ℚ))
    (hne : db ≠ []) : brute_force_search q db 0 = none := by
  obtain ⟨v, rest, rfl⟩ := List.exists_cons_of_ne_nil hne
  norm_num [brute_force_search, scanFrom, scanStep, toSizeT, heapTop]

/-- C10: for every negative C++ int k, static_cast<size_t>(k) is at least
2^64 - 2^31, so the capacity test never fails and every database entry is
admitted: the search returns the whole database (one entry per index),
sorted ascending by distance, instead of failing or truncating to k. -/
theorem c10_negative_k_returns_everything (q : List ℚ) (db : List (List ℚ))
    (k : ℤ) (hk1 : -2147483648 ≤ k) (hk2 : k < 0)
    (hn : db.length < 9223372036854775808) :
    ∃ rs, brute_force_search q db k = some rs ∧ rs.length = db.length ∧
      List.Pairwise (fun x y => x.distance ≤ y.distance) rs ∧
      ∀ j, j < db.length → ∃ x ∈ rs, x.index = j := by
  have hbig : 9223372036854775808 ≤ toSizeT k := toSizeT_of_neg hk1 hk2
  obtain ⟨hp, hrun, inv⟩ := search_spec k q db (by omega)
  refine ⟨hp.reverse, hrun, ?_, ?_, ?_⟩
  · rw [List.length_reverse, inv.len]
    omega
  · rw [List.pairwise_reverse]
    exact inv.sorted
  · intro j hj
    have hall : ∀ a ∈ hp.map SearchResult.index, a < db.length := by
      intro a ha
      obtain ⟨y, hy, hyi⟩ := List.mem_map.mp ha
      rw [← hyi]
      exact (inv.ok y hy).2.1
    have hlenm : (hp.map SearchResult.index).length = db.length := by
      rw [List.length_map, inv.len]
      omega
    have hjmem := mem_of_nodup_full inv.nodup hall hlenm j hj
    obtain ⟨y, hy, hyi⟩ := List.mem_map.mp hjmem
    exact ⟨y, List.mem_reverse.mpr hy, hyi⟩

/-- C1 (what the code actually does on a dimension mismatch): l2_distance
returns the sentinel -1 instead of aborting, and brute_force_search ranks
the mismatched entry with distance -1 — here the mismatched vector [0, 0]
evicts the genuine nearest neighbour and is returned as the sole, top
result.  No abort and no refusal to produce a Result Set occurs. -/
theorem c1_mismatch_entry_is_ranked :
    l2_distance [0] [0, 0] = -1 ∧
    brute_force_search [0] [[1], [0, 0]] 1 = some [⟨1, -1⟩] := by
  constructor
  · norm_num [l2_distance, sqSum]
  · norm_num [brute_force_search, scanFrom, scanStep, l2_distance, sqSum,
      heapPush, heapTop, heapPop, toSizeT, drainHeap]

/-- C2 (what the code actually does for k ≤ 0): no InvalidArgument check
exists.  For k = 0 with a nonempty database the scan reaches top() on the
empty heap (undefined behaviour, modelled as none); for k = -1 the cast
makes the capacity huge and the search returns the whole database. -/
theorem c2_no_invalid_argument_check :
    brute_force_search [0] [[0]] 0 = none ∧
    brute_force_search [0] [[0], [1]] (-1) = some [⟨0, 0⟩, ⟨1, 1⟩] := by
  constructor
  · norm_num [brute_force_search, scanFrom, scanStep, l2_distance, sqSum,
      heapPush, heapTop, heapPop, toSizeT, drainHeap]
  · norm_num [brute_force_search, scanFrom, scanStep, l2_distance, sqSum,
      heapPush, heapTop, heapPop, toSizeT, drainHeap]

/-! ### Witnesses: the claim theorems applied at concrete inputs -/

theorem c4_witness :
    (1 : ℤ) ≤ 3 ∧ (3 : ℤ) < 2147483648 ∧
    ∃ rs, brute_force_search [0] ([[1], [2]] : List (List ℚ)) 3 = some rs ∧
      rs.length = min (3 : ℤ).toNat ([[1], [2]] : List (List ℚ)).length ∧
      (([[1], [2]] : List (List ℚ)) = [] → rs = []) :=
  ⟨by decide, by decide, c4_result_set_size [0] [[1], [2]] 3 (by decide) (by decide)⟩

theorem c5_witness :
    (1 : ℤ) ≤ 1 ∧ (1 : ℤ) < 2147483648 ∧
    ∃ rs, brute_force_search [0] ([[2], [1]] : List (List ℚ)) 1 = some rs ∧
      List.Pairwise (fun x y => x.distance ≤ y.distance) rs :=
  ⟨by decide, by decide, c5_sorted_ascending [0] [[2], [1]] 1 (by decide) (by decide)⟩

theorem c6_witness :
    (1 : ℤ) ≤ 2 ∧ (2 : ℤ) < 2147483648 ∧
    (∀ v ∈ ([[1], [2]] : List (List ℚ)), v.length = ([0] : List ℚ).length) ∧
    ∃ rs, brute_force_search [0] ([[1], [2]] : List (List ℚ)) 2 = some rs ∧
      ∀ x ∈ rs, x.index < ([[1], [2]] : List (List ℚ)).length ∧
        x.distance = l2_distance [0] (([[1], [2]] : List (List ℚ)).getD x.index []) ∧
        x.distance = sqSum [0] (([[1], [2]] : List (List ℚ)).getD x.index []) :=
  ⟨by decide, by decide, by decide,
    c6_entries_recompute [0] [[1], [2]] 2 (by decide) (by decide) (by decide)⟩

theorem c3_witness :
    (1 : ℤ) ≤ 1 ∧ (1 : ℤ) < 2147483648 ∧
    ((∃ rs, brute_force_search [0] ([[0], [1]] : List (List ℚ)) 1 = some rs ∧
      ∀ j, j < ([[0], [1]] : List (List ℚ)).length → (∀ x ∈ rs, x.index ≠ j) →
        ∀ x ∈ rs, x.distance ≤ l2_distance [0] (([[0], [1]] : List (List ℚ)).getD j [])) ∧
    (∀ (i : ℕ) (v : List ℚ) (hp : List SearchResult) (t : SearchResult),
      ¬ hp.length < toSizeT 1 → heapTop hp = some t →
      l2_distance [0] v = t.distance → scanStep 1 [0] i v hp = some hp)) :=
  ⟨by decide, by decide, c3_excluded_not_closer [0] [[0], [1]] 1 (by decide) (by decide)⟩

theorem c7_witness :
    ∃ rs, brute_force_search [0] (List.replicate 1000 ([0] : List ℚ)) 5 = some rs ∧
      rs.length = 5 ∧ (∀ x ∈ rs, x.distance = 0) ∧
      (∀ j, (∃ x ∈ rs, x.index = j) ↔ j < 5) :=
  c7_identical_database [0]

theorem c9_witness :
    ([[0]] : List (List ℚ)) ≠ [] ∧
    brute_force_search [0] ([[0]] : List (List ℚ)) 0 = none :=
  ⟨by decide, c9_k_zero_reads_empty_top [0] [[0]] (by decide)⟩

theorem c10_witness :
    (-2147483648 : ℤ) ≤ -1 ∧ (-1 : ℤ) < 0 ∧
    ([[1], [0]] : List (List ℚ)).length < 9223372036854775808 ∧
    ∃ rs, brute_force_search [0] ([[1], [0]] : List (List ℚ)) (-1) = some rs ∧
      rs.length = ([[1], [0]] : List (List ℚ)).length ∧
      List.Pairwise (fun x y => x.distance ≤ y.distance) rs ∧
      ∀ j, j < ([[1], [0]] : List (List ℚ)).length → ∃ x ∈ rs, x.index = j :=
  ⟨by decide, by decide, by decide,
    c10_negative_k_returns_everything [0] [[1], [0]] (-1)
      (by decide) (by decide) (by decide)⟩
